import Mathlib

/-!
Verification of the CS499 advising-assistance course planner
(Ejkwon593/EddyKwon_CS499_FinalPortfolio).

The repository holds two single-file C++ implementations:
* the original artifact `ProjectTwo.cpp` (loader + sorted listing + detail view), and
* the enhanced artifact (in the code-review bundle) that adds a dependency
  graph and Kahn's topological sort.

C++ `std::string` values are byte strings; we embed them as `List Nat`
(one entry per byte).  `std::unordered_map` values are embedded as
association lists whose key lists are duplicate-free; lookups scan for the
first matching key, which agrees with the map semantics under that
invariant.  All definitions below are translated from the C++ source.
-/

/-- A byte string (`std::string`): one `Nat` per byte. -/
abbrev Str := List Nat

/-- ASCII encoding helper used to write concrete examples. -/
def asciiStr (s : String) : Str := s.data.map Char.toNat

/-- `std::isspace` on a byte in the default C locale:
space (32) and the control characters 9..13. -/
def isspaceB (b : Nat) : Bool := b == 32 || (9 ≤ b && b ≤ 13)

/-- `std::isalnum` on a byte in the default C locale: ASCII digits and letters. -/
def isalnumB (b : Nat) : Bool :=
  (48 ≤ b && b ≤ 57) || (65 ≤ b && b ≤ 90) || (97 ≤ b && b ≤ 122)

/-- `std::toupper` on a byte: map a lowercase ASCII letter to uppercase. -/
def toupperB (b : Nat) : Nat := if 97 ≤ b && b ≤ 122 then b - 32 else b

/-- `stripBOM`: erase a leading UTF-8 byte-order mark `EF BB BF` if present. -/
def stripBOM : Str → Str
  | 239 :: 187 :: 191 :: rest => rest
  | s => s

/-- `ltrim`: erase leading whitespace. -/
def ltrim (s : Str) : Str := s.dropWhile isspaceB

/-- `rtrim`: erase trailing whitespace (the C++ code walks reverse iterators). -/
def rtrim (s : Str) : Str := (s.reverse.dropWhile isspaceB).reverse

/-- `trim`: `ltrim` then `rtrim`. -/
def trim (s : Str) : Str := rtrim (ltrim s)

/-- `canonCode`: strip a BOM, trim, keep only alphanumeric bytes, uppercase them. -/
def canonCode (s : Str) : Str := ((trim (stripBOM s)).filter isalnumB).map toupperB

/-- One step of `splitCSV`'s `std::getline(ss, field, ',')` loop: cut the raw
line at commas.  `getline` fails (ending the loop) exactly when the stream is
already exhausted, so an input ending in a comma yields no trailing empty
field and an empty input yields no field at all. -/
def splitCSVraw : Str → List Str
  | [] => []
  | b :: rest =>
    if b = 44 then [] :: splitCSVraw rest
    else
      match splitCSVraw rest with
      | [] => [[b]]
      | f :: fs => (b :: f) :: fs

/-- `splitCSV`: split at commas, then strip a BOM and trim each field. -/
def splitCSV (line : Str) : List Str := (splitCSVraw line).map (fun f => trim (stripBOM f))

/-- The course entity: both artifacts store a (normalized) course number, a
verbatim title and the list of normalized prerequisite codes. -/
structure Course where
  number : Str
  title : Str
  prereqs : List Str
deriving Repr, DecidableEq

/-- The catalog `std::unordered_map<std::string, Course>`, embedded as an
association list with duplicate-free keys. -/
abbrev Catalog := List (Str × Course)

/-- The key list of an embedded map. -/
def keysOf {α : Type} (m : List (Str × α)) : List Str := m.map Prod.fst

/-- `catalog.find(k)` — first entry with the given key, if any. -/
def findC : Catalog → Str → Option Course
  | [], _ => none
  | kv :: rest, k => if kv.1 = k then some kv.2 else findC rest k

/-- `catalog.find(p) != catalog.end()` as a Boolean. -/
def isKey : Catalog → Str → Bool
  | [], _ => false
  | kv :: rest, k => if kv.1 = k then true else isKey rest k

/-- `catalog[c.number()] = std::move(c)` — `operator[]` assignment:
replace the entry with this key if present, otherwise append a new entry. -/
def insertKV : Catalog → Str → Course → Catalog
  | [], k, v => [(k, v)]
  | kv :: rest, k, v => if kv.1 = k then (k, v) :: rest else kv :: insertKV rest k v

/-- `Course::addPrereq`: push the normalized prerequisite unless it
normalizes to the empty string. -/
def addPrereq (c : Course) (p : Str) : Course :=
  let norm := canonCode p
  if norm.isEmpty then c else { c with prereqs := c.prereqs ++ [norm] }

/-- One iteration of the enhanced artifact's `loadCourses` line loop:
skip blank and `#`-comment lines and records with fewer than two fields,
otherwise build the `Course` (normalized number, verbatim title, normalized
non-empty prerequisites) and store it under its number.  Note this variant
performs no empty-number check before the insertion. -/
def processLineE (catalog : Catalog) (line : Str) : Catalog :=
  let check := trim (stripBOM line)
  if check.isEmpty then catalog
  else if check.headD 0 = 35 then catalog
  else
    let fields := splitCSV line
    if fields.length < 2 then catalog
    else
      let c := (fields.drop 2).foldl addPrereq
        { number := canonCode (fields.getD 0 []), title := fields.getD 1 [], prereqs := [] }
      insertKV catalog c.number c

/-- One iteration of the original artifact's `loadCourses` line loop: as in
the enhanced variant, but a record whose course code normalizes to the empty
string is skipped (with a warning) instead of stored. -/
def processLineO (catalog : Catalog) (line : Str) : Catalog :=
  let check := trim (stripBOM line)
  if check.isEmpty then catalog
  else if check.headD 0 = 35 then catalog
  else
    let fields := splitCSV line
    if fields.length < 2 then catalog
    else
      let c := (fields.drop 2).foldl addPrereq
        { number := canonCode (fields.getD 0 []), title := fields.getD 1 [], prereqs := [] }
      if c.number.isEmpty then catalog
      else insertKV catalog c.number c

/-- Enhanced `loadCourses`.  The file source is `none` when
`std::ifstream` fails to open (the function returns `false` before touching
the catalog) and `some lines` otherwise (the catalog is cleared and rebuilt
from the lines). -/
def loadCoursesE : Option (List Str) → Catalog → Bool × Catalog
  | none, catalog => (false, catalog)
  | some lines, _ => (true, lines.foldl processLineE [])

/-- Original `loadCourses`, same source model. -/
def loadCoursesO : Option (List Str) → Catalog → Bool × Catalog
  | none, catalog => (false, catalog)
  | some lines, _ => (true, lines.foldl processLineO [])

/-- A catalog as it can exist at runtime: the result of some successful load
by either artifact (both clear the catalog and rebuild it from the file). -/
def LoadedCatalog (cat : Catalog) : Prop :=
  ∃ lines, (loadCoursesE (some lines) []).2 = cat ∨ (loadCoursesO (some lines) []).2 = cat

-- ---------------------------------------------------------------------------
-- Query/report layer
-- ---------------------------------------------------------------------------

/-- Observable outcome of `printCourseList` (both artifacts: an empty catalog
prints the no-data message; otherwise the entries sorted by key). -/
inductive ListReport where
  | noData : ListReport
  | listing (rows : List (Str × Str)) : ListReport
deriving Repr, DecidableEq

/-- Byte-wise lexicographic `operator<` on `std::string`. -/
def strLt : Str → Str → Bool
  | [], [] => false
  | [], _ :: _ => true
  | _ :: _, [] => false
  | a :: s, b :: t => if a < b then true else if b < a then false else strLt s t

/-- Insertion used to model `std::sort` on the key vector (stable on
equal keys, which cannot occur since catalog keys are unique). -/
def insertLe (x : Str) : List Str → List Str
  | [] => [x]
  | y :: rest => if strLt y x then y :: insertLe x rest else x :: y :: rest

/-- `std::sort` of the gathered key vector, ascending lexicographic. -/
def sortStrs (l : List Str) : List Str := l.foldr insertLe []

/-- `printCourseList`: no-data message on an empty catalog, else the
`(number, title)` rows in ascending key order (`catalog.at(k)` per key). -/
def printCourseList (catalog : Catalog) : ListReport :=
  if catalog.isEmpty then .noData
  else
    .listing ((sortStrs (keysOf catalog)).map (fun k =>
      match findC catalog k with
      | some c => (c.number, c.title)
      | none => ([], [])))

/-- Observable outcome of the enhanced artifact's `printSingleCourse`:
it has no empty-catalog branch — a miss always prints "Course not found.". -/
inductive DetailOutE where
  | notFound : DetailOutE
  | detail (number title : Str) (prereqs : List Str) : DetailOutE
deriving Repr, DecidableEq

/-- How the original artifact renders one prerequisite in the detail view. -/
inductive PrereqDisp where
  | resolved (number title : Str) : PrereqDisp
  | unavailable (code : Str) : PrereqDisp
deriving Repr, DecidableEq

/-- Observable outcome of the original artifact's `printSingleCourse`. -/
inductive DetailOutO where
  | noDataMsg : DetailOutO
  | notFound (raw : Str) : DetailOutO
  | detail (number title : Str) (prereqs : List PrereqDisp) : DetailOutO
deriving Repr, DecidableEq

/-- Enhanced `printSingleCourse`: normalize the query, look it up; a miss
yields the not-found message (no empty-catalog check exists in this variant). -/
def printSingleCourseE (catalog : Catalog) (rawInput : Str) : DetailOutE :=
  let key := canonCode rawInput
  match findC catalog key with
  | none => .notFound
  | some c => .detail c.number c.title c.prereqs

/-- Original `printSingleCourse`: an empty catalog prints the no-data
message; otherwise normalize, look up, and render each prerequisite with its
resolved title when it is a catalog entry and as "(title unavailable)"
otherwise. -/
def printSingleCourseO (catalog : Catalog) (rawInput : Str) : DetailOutO :=
  if catalog.isEmpty then .noDataMsg
  else
    let key := canonCode rawInput
    match findC catalog key with
    | none => .notFound rawInput
    | some c =>
      .detail c.number c.title (c.prereqs.map (fun p =>
        match findC catalog p with
        | some pc => PrereqDisp.resolved pc.number pc.title
        | none => PrereqDisp.unavailable p))

-- ---------------------------------------------------------------------------
-- Graph + Topological sort (enhanced artifact)
-- ---------------------------------------------------------------------------

/-- `std::unordered_map<std::string, std::vector<std::string>>` adjacency. -/
abbrev AdjMap := List (Str × List Str)

/-- `std::unordered_map<std::string, int>` in-degrees. -/
abbrev IndegMap := List (Str × Int)

/-- `adj[u]` read access; a missing key reads as the empty successor list
(in `buildGraph` and the sort loop the key is always present). -/
def adjLookup : AdjMap → Str → List Str
  | [], _ => []
  | kv :: rest, k => if kv.1 = k then kv.2 else adjLookup rest k

/-- `adj[p].push_back(c)`: append to the successor list of an existing key
(`buildGraph` only appends under keys initialized in its first loop). -/
def adjAppend : AdjMap → Str → Str → AdjMap
  | [], _, _ => []
  | kv :: rest, k, c => if kv.1 = k then (kv.1, kv.2 ++ [c]) :: rest else kv :: adjAppend rest k c

/-- `indegree[v]` read access; a missing key reads as `operator[]`'s default 0. -/
def indegLookup : IndegMap → Str → Int
  | [], _ => 0
  | kv :: rest, k => if kv.1 = k then kv.2 else indegLookup rest k

/-- `++indegree[c]` on an existing key (`buildGraph` only increments keys
initialized in its first loop). -/
def indegIncr : IndegMap → Str → IndegMap
  | [], _ => []
  | kv :: rest, k => if kv.1 = k then (kv.1, kv.2 + 1) :: rest else kv :: indegIncr rest k

/-- `--indegree[v]`: decrement the entry, creating it at `operator[]`'s
default 0 first when absent (never needed for graphs built by `buildGraph`). -/
def indegDecr : IndegMap → Str → IndegMap
  | [], k => [(k, -1)]
  | kv :: rest, k => if kv.1 = k then (kv.1, kv.2 - 1) :: rest else kv :: indegDecr rest k

/-- `buildGraph`: give every catalog key an (initially empty / zero) entry in
both maps, then for every course and every one of its prerequisites that is a
catalog key, append an edge prerequisite → course and bump the course's
in-degree.  Duplicate prerequisite occurrences each add an edge. -/
def buildGraph (catalog : Catalog) : AdjMap × IndegMap :=
  let adj0 : AdjMap := catalog.map (fun kv => (kv.1, []))
  let ind0 : IndegMap := catalog.map (fun kv => (kv.1, 0))
  catalog.foldl (fun acc kv =>
      kv.2.prereqs.foldl (fun acc2 p =>
          if isKey catalog p then (adjAppend acc2.1 p kv.1, indegIncr acc2.2 kv.1) else acc2)
        acc)
    (adj0, ind0)

/-- `std::set<std::string>::insert` on a strictly ascending list. -/
def setInsert (x : Str) : List Str → List Str
  | [] => [x]
  | y :: rest =>
    if strLt x y then x :: y :: rest
    else if strLt y x then y :: setInsert x rest
    else y :: rest

/-- Build a `std::set` from a list of insertions. -/
def setOfList (l : List Str) : List Str := l.foldl (fun s x => setInsert x s) []

/-- The body of the inner `for (auto& v : adj[u])` loop of the sort:
decrement the successor's in-degree and move it into the ready set when the
decrement reaches exactly zero (`if (--indegree[v] == 0) zero.insert(v)`). -/
def relaxSucc (acc : List Str × IndegMap) (v : Str) : List Str × IndegMap :=
  let ind := indegDecr acc.2 v
  if indegLookup ind v = 0 then (setInsert v acc.1, ind) else (acc.1, ind)

/-- The inner `for (auto& v : adj[u])` loop of the sort. -/
def kahnStep (zero : List Str) (adj : AdjMap) (indeg : IndegMap) (u : Str) :
    List Str × IndegMap :=
  (adjLookup adj u).foldl relaxSucc (zero, indeg)

/-- The `while (!zero.empty())` loop of Kahn's algorithm: pop the smallest
ready code (`*zero.begin()` of the `std::set`), append it to the order, and
process its successors.  The C++ loop terminates because each in-degree
counter passes zero at most once, so at most one insertion per adjacency
entry (plus the initial members) ever enters the ready set; the `fuel`
argument carries that iteration bound explicitly. -/
def kahnLoop : Nat → List Str → AdjMap → IndegMap → List Str
  | 0, _, _, _ => []
  | _ + 1, [], _, _ => []
  | fuel + 1, u :: rest, adj, indeg =>
    let s := kahnStep rest adj indeg u
    u :: kahnLoop fuel s.1 adj s.2

/-- The initial ready set: every code whose in-degree is zero. -/
def initialZero (indeg : IndegMap) : List Str :=
  setOfList ((indeg.filter (fun kv => kv.2 == 0)).map Prod.fst)

/-- Total length of all successor lists (used only for the fuel bound). -/
def totalAdjLen (adj : AdjMap) : Nat := (adj.map (fun kv => kv.2.length)).sum

/-- The complete topological sort of `printRecommendedOrder`: build the
graph, seed the ready set, run the loop. -/
def topoOrder (catalog : Catalog) : List Str :=
  let g := buildGraph catalog
  kahnLoop (g.2.length + totalAdjLen g.1 + 1) (initialZero g.2) g.1 g.2

/-- Observable outcome of `printRecommendedOrder`: the no-data flag, the
printed order, and whether the circular-dependency warning is printed
(`order.size() != catalog.size()`). -/
structure OrderReport where
  noData : Bool
  order : List Str
  cycleWarning : Bool
deriving Repr, DecidableEq

/-- `printRecommendedOrder`: empty catalog prints the no-data message;
otherwise print the topological order and warn iff it is not a full order. -/
def printRecommendedOrder (catalog : Catalog) : OrderReport :=
  if catalog.isEmpty then ⟨true, [], false⟩
  else
    let order := topoOrder catalog
    ⟨false, order, order.length != catalog.length⟩

-- ---------------------------------------------------------------------------
-- Derived notions used to state the claims
-- ---------------------------------------------------------------------------

/-- The flattened sequence of `(prerequisite, course)` instruction pairs that
`buildGraph`'s nested second loop visits, in visit order. -/
def prereqInstr : Catalog → List (Str × Str)
  | [] => []
  | kv :: rest => kv.2.prereqs.map (fun p => (p, kv.1)) ++ prereqInstr rest

/-- The edges `buildGraph` actually adds: the instruction pairs whose
prerequisite endpoint is a catalog key (duplicates kept). -/
def graphEdges (catalog : Catalog) : List (Str × Str) :=
  (prereqInstr catalog).filter (fun e => isKey catalog e.1)

/-- The effect of one `(prerequisite, course)` instruction pair on the two
maps under construction in `buildGraph`'s second loop. -/
def graphStep (catalog : Catalog) (acc : AdjMap × IndegMap) (e : Str × Str) :
    AdjMap × IndegMap :=
  if isKey catalog e.1 then (adjAppend acc.1 e.1 e.2, indegIncr acc.2 e.2) else acc

/-- The prerequisite-edge relation of the catalog: `p` is an in-catalog
prerequisite of catalog course `c`. -/
def prereqEdge (catalog : Catalog) (p c : Str) : Prop :=
  ∃ co, findC catalog c = some co ∧ p ∈ co.prereqs ∧ isKey catalog p = true

/-- A witness that the prerequisite graph has a cycle: a nonempty set of
codes each of which has an in-catalog prerequisite inside the set (any
directed cycle yields such a set, e.g. its vertex set). -/
def CycleSet (catalog : Catalog) (S : List Str) : Prop :=
  S ≠ [] ∧ ∀ c ∈ S, ∃ p ∈ S, prereqEdge catalog p c

/-- Number of edges into `v` whose source is not yet in the output `O`. -/
def cntPreds (E : List (Str × Str)) (O : List Str) (v : Str) : Nat :=
  E.countP (fun e => decide (e.2 = v ∧ e.1 ∉ O))

/-- Multiplicity of the edge `u → v` in an edge list. -/
def countEdge (E : List (Str × Str)) (u v : Str) : Nat :=
  E.countP (fun e => decide (e.1 = u ∧ e.2 = v))

/-- Strict ascending (sorted, duplicate-free) Boolean predicate matching the
`std::set` iteration order. -/
def sortedStr : List Str → Bool
  | a :: b :: t => strLt a b && sortedStr (b :: t)
  | _ => true

-- ---------------------------------------------------------------------------
-- Concrete inputs used to exercise the theorems
-- ---------------------------------------------------------------------------

/-- The three-course example file from the repository's sample data. -/
def demoLines : List Str :=
  [asciiStr "CSCI100,Intro to CS",
   asciiStr "CSCI101,Intro to Programming,CSCI100",
   asciiStr "CSCI200,Data Structures,CSCI101,MATH201"]

/-- The catalog the enhanced artifact loads from `demoLines`. -/
def demoCatalog : Catalog := (loadCoursesE (some demoLines) []).2

/-- A two-course catalog in which each course requires the other. -/
def cycleCatalog : Catalog :=
  (loadCoursesE (some [asciiStr "A,Course A,B", asciiStr "B,Course B,A"]) []).2

/-- A record whose course code normalizes to the empty string. -/
def emptyCodeLine : Str := asciiStr ",Title"

/-- A sorted two-element ready set used to exercise the sorter's selection. -/
def demoZero : List Str := [asciiStr "A", asciiStr "B"]

-- ---------------------------------------------------------------------------
-- Normalizer lemmas
-- ---------------------------------------------------------------------------

theorem isalnumB_iff {b : Nat} :
    isalnumB b = true ↔ (48 ≤ b ∧ b ≤ 57) ∨ (65 ≤ b ∧ b ≤ 90) ∨ (97 ≤ b ∧ b ≤ 122) := by
  simp [isalnumB, or_assoc]

theorem toupperB_eq (b : Nat) : toupperB b = if 97 ≤ b ∧ b ≤ 122 then b - 32 else b := by
  unfold toupperB
  by_cases hc : 97 ≤ b ∧ b ≤ 122
  · rw [if_pos (by simpa using hc), if_pos hc]
  · rw [if_neg (by simpa using hc), if_neg hc]

/-- An alphanumeric byte stays alphanumeric, non-space, non-BOM and fixed
under a second uppercasing. -/
theorem toupperB_props {b : Nat} (h : isalnumB b = true) :
    isalnumB (toupperB b) = true ∧ toupperB (toupperB b) = toupperB b ∧
      isspaceB (toupperB b) = false ∧ toupperB b ≠ 239 := by
  have hb := isalnumB_iff.mp h
  by_cases hc : 97 ≤ b ∧ b ≤ 122
  · have h1 : toupperB b = b - 32 := by rw [toupperB_eq, if_pos hc]
    have h2 : toupperB (b - 32) = b - 32 := by rw [toupperB_eq, if_neg (by omega)]
    refine ⟨isalnumB_iff.mpr (by omega), by rw [h1, h2], ?_, by omega⟩
    rw [h1]; simp [isspaceB]; omega
  · have h1 : toupperB b = b := by rw [toupperB_eq, if_neg hc]
    refine ⟨isalnumB_iff.mpr (by omega), by rw [h1, h1], ?_, by omega⟩
    rw [h1]; simp [isspaceB]; omega

/-- Every byte of a normalized code is alphanumeric, uppercase-fixed,
non-space and not the BOM lead byte. -/
theorem canonCode_mem {b : Nat} {s : Str} (h : b ∈ canonCode s) :
    isalnumB b = true ∧ toupperB b = b ∧ isspaceB b = false ∧ b ≠ 239 := by
  unfold canonCode at h
  simp only [List.mem_map, List.mem_filter] at h
  obtain ⟨a, ⟨-, ha⟩, rfl⟩ := h
  exact toupperB_props ha

theorem stripBOM_eq_self {l : Str} (h : ∀ b ∈ l, b ≠ 239) : stripBOM l = l := by
  unfold stripBOM
  split
  · exact absurd rfl (h 239 (by simp))
  · rfl

theorem dropWhile_eq_self {p : Nat → Bool} {l : Str} (h : ∀ b ∈ l, p b = false) :
    l.dropWhile p = l := by
  cases l with
  | nil => rfl
  | cons a t => simp [List.dropWhile_cons, h a (by simp)]

theorem map_eq_self {f : Nat → Nat} {l : Str} (h : ∀ b ∈ l, f b = b) : l.map f = l := by
  induction l with
  | nil => rfl
  | cons a t ih => simp [h a (by simp), ih (fun b hb => h b (by simp [hb]))]

/-- The normalizer is idempotent. -/
theorem canonCode_idem (s : Str) : canonCode (canonCode s) = canonCode s := by
  have hmem : ∀ b ∈ canonCode s,
      isalnumB b = true ∧ toupperB b = b ∧ isspaceB b = false ∧ b ≠ 239 :=
    fun b hb => canonCode_mem hb
  have h1 : stripBOM (canonCode s) = canonCode s :=
    stripBOM_eq_self (fun b hb => (hmem b hb).2.2.2)
  have h2 : ltrim (canonCode s) = canonCode s :=
    dropWhile_eq_self (fun b hb => (hmem b hb).2.2.1)
  have h3 : rtrim (canonCode s) = canonCode s := by
    unfold rtrim
    rw [dropWhile_eq_self (fun b hb => (hmem b (List.mem_reverse.mp hb)).2.2.1),
      List.reverse_reverse]
  have h4 : (canonCode s).filter isalnumB = canonCode s :=
    List.filter_eq_self.mpr (fun b hb => (hmem b hb).1)
  have h5 : (canonCode s).map toupperB = canonCode s :=
    map_eq_self (fun b hb => (hmem b hb).2.1)
  calc canonCode (canonCode s)
      = ((trim (stripBOM (canonCode s))).filter isalnumB).map toupperB := rfl
    _ = canonCode s := by rw [h1]; unfold trim; rw [h2, h3, h4, h5]

/-- C8: the normalizer is idempotent — `canonCode (canonCode s) = canonCode s`
for every byte string `s` — and case- and whitespace-insensitive:
`" csci 101 "`, `"CSCI101"` and `"csci101"` all normalize to `"CSCI101"`. -/
theorem canonCode_idem_and_insensitive :
    (∀ s : Str, canonCode (canonCode s) = canonCode s) ∧
    canonCode (asciiStr " csci 101 ") = asciiStr "CSCI101" ∧
    canonCode (asciiStr "CSCI101") = asciiStr "CSCI101" ∧
    canonCode (asciiStr "csci101") = asciiStr "CSCI101" :=
  ⟨canonCode_idem, by decide, by decide, by decide⟩

/-- C5: when the file source cannot be opened, `loadCourses` reports failure
and returns before clearing anything, so the previously active catalog —
possibly empty — is left exactly as it was; the catalog is cleared and
rebuilt only on the successful-open path.  This holds for both artifacts. -/
theorem loadCourses_open_failure_keeps_catalog (catalog : Catalog) :
    loadCoursesE none catalog = (false, catalog) ∧
    loadCoursesO none catalog = (false, catalog) :=
  ⟨rfl, rfl⟩

/-- C6 (evaluation at the failing input): the enhanced artifact's loader,
given the record `",Title"` whose first field normalizes to the empty
string, does NOT skip the record — it stores a course under the empty-string
key, so the loaded catalog contains a course whose code is empty.  (The
original artifact's loader checks `c.number.empty()` and skips; the enhanced
rewrite dropped that check.) -/
theorem enhanced_load_stores_empty_code :
    (loadCoursesE (some [emptyCodeLine]) []).2 =
      [([], { number := [], title := asciiStr "Title", prereqs := [] })] ∧
    isKey (loadCoursesE (some [emptyCodeLine]) []).2 [] = true ∧
    (loadCoursesO (some [emptyCodeLine]) []).2 = [] := by
  refine ⟨by decide, by decide, by decide⟩

/-- C7 (counterexample): the enhanced artifact's `printSingleCourse` has no
empty-catalog branch at all; querying any course against the empty catalog
reports the course-not-found message, not the informational empty-catalog
message. -/
theorem detail_on_empty_catalog_reports_not_found :
    printSingleCourseE [] (asciiStr "CSCI100") = DetailOutE.notFound := rfl

/-- C7 (amended): on an empty catalog, the sorted listing and the
recommended-order query produce the informational empty-catalog message and
do no further work, and the original artifact's detail query does too; the
enhanced artifact's detail query instead reports course-not-found for every
query string. -/
theorem empty_catalog_behaviors :
    printCourseList [] = ListReport.noData ∧
    printRecommendedOrder [] = ⟨true, [], false⟩ ∧
    (∀ q : Str, printSingleCourseO [] q = DetailOutO.noDataMsg) ∧
    (∀ q : Str, printSingleCourseE [] q = DetailOutE.notFound) :=
  ⟨rfl, rfl, fun _ => rfl, fun _ => rfl⟩

-- ---------------------------------------------------------------------------
-- Lexicographic-order lemmas
-- ---------------------------------------------------------------------------

theorem strLt_irrefl (s : Str) : strLt s s = false := by
  induction s with
  | nil => rfl
  | cons a t ih => simp [strLt, ih]

theorem strLt_trans {a : Str} : ∀ {b c : Str},
    strLt a b = true → strLt b c = true → strLt a c = true := by
  induction a with
  | nil =>
    intro b c h1 h2
    cases b with
    | nil => simp [strLt] at h1
    | cons b0 s =>
      cases c with
      | nil => simp [strLt] at h2
      | cons c0 r => rfl
  | cons a0 t ih =>
    intro b c h1 h2
    cases b with
    | nil => simp [strLt] at h1
    | cons b0 s =>
      cases c with
      | nil => simp [strLt] at h2
      | cons c0 r =>
        simp only [strLt] at h1 h2 ⊢
        by_cases hab : a0 < b0 <;> by_cases hbc : b0 < c0
        · rw [if_pos (by omega)]
        · rw [if_neg hbc] at h2
          by_cases hcb : c0 < b0
          · rw [if_pos hcb] at h2; exact absurd h2 (by simp)
          · rw [if_pos (by omega)]
        · rw [if_neg hab] at h1
          by_cases hba : b0 < a0
          · rw [if_pos hba] at h1; exact absurd h1 (by simp)
          · rw [if_pos (by omega)]
        · rw [if_neg hab] at h1
          rw [if_neg hbc] at h2
          by_cases hba : b0 < a0
          · rw [if_pos hba] at h1; exact absurd h1 (by simp)
          · by_cases hcb : c0 < b0
            · rw [if_pos hcb] at h2; exact absurd h2 (by simp)
            · rw [if_neg hba] at h1
              rw [if_neg hcb] at h2
              rw [if_neg (by omega : ¬ a0 < c0), if_neg (by omega : ¬ c0 < a0)]
              exact ih h1 h2

theorem strLt_conn {a : Str} : ∀ {b : Str},
    strLt a b = false → strLt b a = false → a = b := by
  induction a with
  | nil =>
    intro b h1 _
    cases b with
    | nil => rfl
    | cons b0 s => simp [strLt] at h1
  | cons a0 t ih =>
    intro b h1 h2
    cases b with
    | nil => simp [strLt] at h2
    | cons b0 s =>
      simp only [strLt] at h1 h2
      by_cases hab : a0 < b0
      · simp [hab] at h1
      · by_cases hba : b0 < a0
        · simp [hba, hab] at h2
        · have he : a0 = b0 := by omega
          subst he
          rw [if_neg (by omega), if_neg (by omega)] at h1 h2
          rw [ih h1 h2]

theorem strLt_asymm {a b : Str} (h : strLt a b = true) : strLt b a = false := by
  cases hba : strLt b a with
  | false => rfl
  | true => have := strLt_trans h hba; rw [strLt_irrefl] at this; exact absurd this (by simp)

theorem sortedStr_tail {u : Str} {rest : List Str}
    (h : sortedStr (u :: rest) = true) : sortedStr rest = true := by
  cases rest with
  | nil => rfl
  | cons b t => exact (Bool.and_eq_true .. ▸ h).2

theorem sortedStr_head_lt {u : Str} {rest : List Str}
    (h : sortedStr (u :: rest) = true) : ∀ v ∈ rest, strLt u v = true := by
  induction rest generalizing u with
  | nil => intro v hv; simp at hv
  | cons b t ih =>
    intro v hv
    have hub : strLt u b = true := (Bool.and_eq_true .. ▸ h).1
    rcases List.mem_cons.mp hv with rfl | hv
    · exact hub
    · exact strLt_trans hub (ih (sortedStr_tail h) v hv)

theorem setInsert_mem {x v : Str} : ∀ {s : List Str}, v ∈ setInsert x s → v = x ∨ v ∈ s := by
  intro s
  induction s with
  | nil => intro h; simp [setInsert] at h; exact Or.inl h
  | cons y rest ih =>
    intro h
    unfold setInsert at h
    by_cases h1 : strLt x y
    · rw [if_pos h1] at h
      rcases List.mem_cons.mp h with rfl | h
      · exact Or.inl rfl
      · exact Or.inr h
    · rw [if_neg h1] at h
      by_cases h2 : strLt y x
      · rw [if_pos h2] at h
        rcases List.mem_cons.mp h with rfl | h
        · exact Or.inr (List.mem_cons_self ..)
        · rcases ih h with h | h
          · exact Or.inl h
          · exact Or.inr (List.mem_cons_of_mem _ h)
      · rw [if_neg h2] at h
        exact Or.inr h

/-- Inserting above a strict lower bound keeps the list strictly ascending. -/
theorem setInsert_sorted_cons {x : Str} : ∀ {t : List Str} {y : Str},
    strLt y x = true → sortedStr (y :: t) = true →
    sortedStr (y :: setInsert x t) = true := by
  intro t
  induction t with
  | nil =>
    intro y hyx _
    simp [setInsert, sortedStr, hyx]
  | cons z t' ih =>
    intro y hyx hs
    have hyz : strLt y z = true := (Bool.and_eq_true .. ▸ hs).1
    have hzt : sortedStr (z :: t') = true := sortedStr_tail hs
    unfold setInsert
    by_cases h1 : strLt x z
    · rw [if_pos h1]
      show (strLt y x && (strLt x z && sortedStr (z :: t'))) = true
      simp [hyx, h1, hzt]
    · rw [if_neg h1]
      by_cases h2 : strLt z x
      · rw [if_pos h2]
        show (strLt y z && sortedStr (z :: setInsert x t')) = true
        simp [hyz, ih h2 hzt]
      · rw [if_neg h2]
        exact hs

theorem setInsert_sorted {x : Str} : ∀ {s : List Str},
    sortedStr s = true → sortedStr (setInsert x s) = true := by
  intro s hs
  cases s with
  | nil => rfl
  | cons y t =>
    unfold setInsert
    by_cases h1 : strLt x y
    · rw [if_pos h1]
      show (strLt x y && sortedStr (y :: t)) = true
      simp [h1, hs]
    · rw [if_neg h1]
      by_cases h2 : strLt y x
      · rw [if_pos h2]
        exact setInsert_sorted_cons h2 hs
      · rw [if_neg h2]
        exact hs

theorem setOfList_sorted (l : List Str) : sortedStr (setOfList l) = true := by
  unfold setOfList
  suffices h : ∀ (s : List Str), sortedStr s = true →
      sortedStr (l.foldl (fun s x => setInsert x s) s) = true from h [] rfl
  induction l with
  | nil => intro s hs; exact hs
  | cons a t ih => intro s hs; exact ih _ (setInsert_sorted hs)

theorem foldl_setInsert_mem {v : Str} : ∀ (l s : List Str),
    v ∈ l.foldl (fun s x => setInsert x s) s → v ∈ s ∨ v ∈ l := by
  intro l
  induction l with
  | nil => intro s hs; exact Or.inl hs
  | cons a t ih =>
    intro s hs
    rcases ih (setInsert a s) hs with h' | h'
    · rcases setInsert_mem h' with rfl | h''
      · exact Or.inr (List.mem_cons_self ..)
      · exact Or.inl h''
    · exact Or.inr (List.mem_cons_of_mem _ h')

theorem setOfList_mem {v : Str} {l : List Str} (h : v ∈ setOfList l) : v ∈ l := by
  rcases foldl_setInsert_mem l [] h with h' | h'
  · simp at h'
  · exact h'

/-- Unfolding equation for the successor-relaxation step. -/
theorem relaxSucc_eq (S : List Str) (J : IndegMap) (v : Str) :
    relaxSucc (S, J) v =
      if indegLookup (indegDecr J v) v = 0 then (setInsert v S, indegDecr J v)
      else (S, indegDecr J v) := rfl

theorem kahnFold_sorted : ∀ (L : List Str) (S : List Str) (J : IndegMap),
    sortedStr S = true → sortedStr (L.foldl relaxSucc (S, J)).1 = true := by
  intro L
  induction L with
  | nil => intro S J hs; exact hs
  | cons v L' ih =>
    intro S J hs
    rw [List.foldl_cons, relaxSucc_eq]
    by_cases hc : indegLookup (indegDecr J v) v = 0
    · rw [if_pos hc]; exact ih _ _ (setInsert_sorted hs)
    · rw [if_neg hc]; exact ih _ _ hs

theorem kahnStep_sorted (zero : List Str) (adj : AdjMap) (indeg : IndegMap) (u : Str)
    (hs : sortedStr zero = true) : sortedStr (kahnStep zero adj indeg u).1 = true :=
  kahnFold_sorted _ zero indeg hs

/-- C3: at every step of the sort — i.e. for every (sorted, as the ready
`std::set` always is) nonempty ready set the loop can reach — the code
appended next to the output is the lexicographically smallest ready code,
and the ready set passed to the next step is again sorted, so the property
propagates through the whole run.  The sorter is therefore a deterministic
function of the catalog content: `topoOrder` is a pure function, so two runs
on identical catalog content produce identical output orders. -/
theorem kahn_selects_min (fuel : Nat) (zero : List Str) (adj : AdjMap) (indeg : IndegMap)
    (hsorted : sortedStr zero = true) (hne : zero ≠ []) :
    ∃ u rest, zero = u :: rest ∧
      (kahnLoop (fuel + 1) zero adj indeg).head? = some u ∧
      (∀ v ∈ zero, v = u ∨ strLt u v = true) ∧
      sortedStr (kahnStep rest adj indeg u).1 = true := by
  cases zero with
  | nil => exact absurd rfl hne
  | cons u rest =>
    refine ⟨u, rest, rfl, rfl, ?_,
      kahnStep_sorted rest adj indeg u (sortedStr_tail hsorted)⟩
    intro v hv
    rcases List.mem_cons.mp hv with rfl | hv
    · exact Or.inl rfl
    · exact Or.inr (sortedStr_head_lt hsorted v hv)

/-- Witness for `kahn_selects_min` at a concrete sorted two-element ready set. -/
theorem kahn_selects_min_witness :
    sortedStr demoZero = true ∧ demoZero ≠ [] ∧
      ∃ u rest, demoZero = u :: rest ∧
        (kahnLoop 1 demoZero [] []).head? = some u ∧
        (∀ v ∈ demoZero, v = u ∨ strLt u v = true) ∧
        sortedStr (kahnStep rest [] [] u).1 = true :=
  ⟨by decide, by decide, kahn_selects_min 0 demoZero [] [] (by decide) (by decide)⟩

-- ---------------------------------------------------------------------------
-- Association-map lemmas
-- ---------------------------------------------------------------------------

theorem keysOf_cons {α : Type} (kv : Str × α) (m : List (Str × α)) :
    keysOf (kv :: m) = kv.1 :: keysOf m := rfl

theorem indegLookup_indegDecr_self (m : IndegMap) (k : Str) :
    indegLookup (indegDecr m k) k = indegLookup m k - 1 := by
  induction m with
  | nil => simp [indegDecr, indegLookup]
  | cons kv rest ih =>
    by_cases h : kv.1 = k
    · simp [indegDecr, indegLookup, h]
    · simp [indegDecr, indegLookup, h, ih]

theorem indegLookup_indegDecr_ne (m : IndegMap) {k w : Str} (h : w ≠ k) :
    indegLookup (indegDecr m k) w = indegLookup m w := by
  induction m with
  | nil => simp [indegDecr, indegLookup, Ne.symm h]
  | cons kv rest ih =>
    by_cases h1 : kv.1 = k
    · subst h1
      simp [indegDecr, indegLookup, Ne.symm h]
    · by_cases h2 : kv.1 = w
      · simp [indegDecr, indegLookup, h1, h2, h]
      · simp [indegDecr, indegLookup, h1, h2, ih]

theorem keysOf_indegIncr (m : IndegMap) (k : Str) : keysOf (indegIncr m k) = keysOf m := by
  induction m with
  | nil => rfl
  | cons kv rest ih =>
    by_cases h : kv.1 = k <;> simp [indegIncr, keysOf_cons, h, ih]

theorem indegLookup_indegIncr_self {m : IndegMap} {k : Str} (h : k ∈ keysOf m) :
    indegLookup (indegIncr m k) k = indegLookup m k + 1 := by
  induction m with
  | nil => simp [keysOf] at h
  | cons kv rest ih =>
    by_cases h1 : kv.1 = k
    · simp [indegIncr, indegLookup, h1]
    · rw [keysOf_cons, List.mem_cons] at h
      rcases h with h | h
    
      · exact absurd h.symm h1
      · simp [indegIncr, indegLookup, h1, ih h]

theorem indegLookup_indegIncr_ne (m : IndegMap) {k w : Str} (h : w ≠ k) :
    indegLookup (indegIncr m k) w = indegLookup m w := by
  induction m with
  | nil => rfl
  | cons kv rest ih =>
    by_cases h1 : kv.1 = k
    · subst h1
      simp [indegIncr, indegLookup, Ne.symm h]
    · by_cases h2 : kv.1 = w
      · simp [indegIncr, indegLookup, h1, h2, h]
      · simp [indegIncr, indegLookup, h1, h2, ih]

theorem keysOf_adjAppend (m : AdjMap) (k c : Str) : keysOf (adjAppend m k c) = keysOf m := by
  induction m with
  | nil => rfl
  | cons kv rest ih =>
    by_cases h : kv.1 = k <;> simp [adjAppend, keysOf_cons, h, ih]

theorem adjLookup_adjAppend_self {m : AdjMap} {k : Str} (h : k ∈ keysOf m) (c : Str) :
    adjLookup (adjAppend m k c) k = adjLookup m k ++ [c] := by
  induction m with
  | nil => simp [keysOf] at h
  | cons kv rest ih =>
    by_cases h1 : kv.1 = k
    · simp [adjAppend, adjLookup, h1]
    · rw [keysOf_cons, List.mem_cons] at h
      rcases h with h | h
      · exact absurd h.symm h1
      · simp [adjAppend, adjLookup, h1, ih h]

theorem adjLookup_adjAppend_ne (m : AdjMap) {k w : Str} (c : Str) (h : w ≠ k) :
    adjLookup (adjAppend m k c) w = adjLookup m w := by
  induction m with
  | nil => rfl
  | cons kv rest ih =>
    by_cases h1 : kv.1 = k
    · subst h1
      simp [adjAppend, adjLookup, Ne.symm h]
    · by_cases h2 : kv.1 = w
      · simp [adjAppend, adjLookup, h1, h2, h]
      · simp [adjAppend, adjLookup, h1, h2, ih]

theorem isKey_iff_mem {cat : Catalog} {k : Str} : isKey cat k = true ↔ k ∈ keysOf cat := by
  induction cat with
  | nil => simp [isKey, keysOf]
  | cons kv rest ih =>
    by_cases h : kv.1 = k
    · simp [isKey, keysOf_cons, h]
    · simp [isKey, keysOf_cons, h, ih, Ne.symm h]

theorem isKey_iff_findC {cat : Catalog} {k : Str} :
    isKey cat k = true ↔ ∃ co, findC cat k = some co := by
  induction cat with
  | nil => simp [isKey, findC]
  | cons kv rest ih =>
    by_cases h : kv.1 = k
    · simp [isKey, findC, h]
    · simp [isKey, findC, h, ih]

theorem findC_eq_some_mem {cat : Catalog} {k : Str} {v : Course}
    (h : findC cat k = some v) : (k, v) ∈ cat := by
  induction cat with
  | nil => simp [findC] at h
  | cons kv rest ih =>
    by_cases h1 : kv.1 = k
    · rw [findC, if_pos h1] at h
      have : kv = (k, v) := by
        cases kv
        simp at h1 ⊢
        exact ⟨h1, by injection h⟩
      rw [← this]
      exact List.mem_cons_self ..
    · rw [findC, if_neg h1] at h
      exact List.mem_cons_of_mem _ (ih h)

theorem findC_of_mem_nodup {cat : Catalog} (hnd : (keysOf cat).Nodup)
    {k : Str} {v : Course} (h : (k, v) ∈ cat) : findC cat k = some v := by
  induction cat with
  | nil => simp at h
  | cons kv rest ih =>
    rw [keysOf_cons, List.nodup_cons] at hnd
    rcases List.mem_cons.mp h with rfl | h
    · rw [findC, if_pos rfl]
    · have hk : kv.1 ≠ k := by
        intro he
        exact hnd.1 (he ▸ (by simpa [keysOf] using List.mem_map_of_mem Prod.fst h))
      rw [findC, if_neg hk]
      exact ih hnd.2 h

theorem indegLookup_of_mem_nodup {m : IndegMap} (hnd : (keysOf m).Nodup)
    {k : Str} {d : Int} (h : (k, d) ∈ m) : indegLookup m k = d := by
  induction m with
  | nil => simp at h
  | cons kv rest ih =>
    rw [keysOf_cons, List.nodup_cons] at hnd
    rcases List.mem_cons.mp h with rfl | h
    · rw [indegLookup, if_pos rfl]
    · have hk : kv.1 ≠ k := by
        intro he
        exact hnd.1 (he ▸ (by simpa [keysOf] using List.mem_map_of_mem Prod.fst h))
      rw [indegLookup, if_neg hk]
      exact ih hnd.2 h

theorem adjLookup_init (cat : Catalog) (u : Str) :
    adjLookup (cat.map (fun kv => (kv.1, ([] : List Str)))) u = [] := by
  induction cat with
  | nil => rfl
  | cons kv rest ih =>
    by_cases h : kv.1 = u <;> simp [adjLookup, h, ih]

theorem indegLookup_init (cat : Catalog) (u : Str) :
    indegLookup (cat.map (fun kv => (kv.1, (0 : Int)))) u = 0 := by
  induction cat with
  | nil => rfl
  | cons kv rest ih =>
    by_cases h : kv.1 = u <;> simp [indegLookup, h, ih]

theorem keysOf_map_init {α : Type} (cat : Catalog) (f : Str × Course → α) :
    keysOf (cat.map (fun kv => (kv.1, f kv))) = keysOf cat := by
  induction cat with
  | nil => rfl
  | cons kv rest ih => simp [keysOf_cons, ih]

-- ---------------------------------------------------------------------------
-- Counting lemmas
-- ---------------------------------------------------------------------------

/-- The multiset of successors stored under `u` counts edges from `u`. -/
theorem count_snd_filter (E : List (Str × Str)) (u v : Str) :
    ((E.filter (fun e => decide (e.1 = u))).map Prod.snd).count v = countEdge E u v := by
  induction E with
  | nil => rfl
  | cons e E' ih =>
    by_cases h1 : e.1 = u
    · by_cases h2 : e.2 = v
      · simp [countEdge, List.countP_cons, List.count_cons, h1, h2] at ih ⊢
        omega
      · simp [countEdge, List.countP_cons, List.count_cons, h1, h2] at ih ⊢
        exact ih
    · simp [countEdge, List.countP_cons, h1] at ih ⊢
      exact ih

/-- Membership in the successor list yields an edge. -/
theorem mem_snd_filter {E : List (Str × Str)} {u w : Str}
    (h : w ∈ (E.filter (fun e => decide (e.1 = u))).map Prod.snd) : (u, w) ∈ E := by
  simp only [List.mem_map, List.mem_filter, decide_eq_true_eq] at h
  obtain ⟨e, ⟨he, he1⟩, he2⟩ := h
  have : e = (u, w) := by
    cases e; simp at he1 he2 ⊢; exact ⟨he1, he2⟩
  exact this ▸ he

/-- Appending a fresh element `u` to the output splits the pending-predecessor
count of every node into the part still pending and the `u → v` edges. -/
theorem cntPreds_append (E : List (Str × Str)) {O : List Str} {u : Str} (hu : u ∉ O)
    (v : Str) : cntPreds E O v = cntPreds E (O ++ [u]) v + countEdge E u v := by
  induction E with
  | nil => rfl
  | cons e E' ih =>
    simp only [cntPreds, countEdge, List.countP_cons] at ih ⊢
    rw [ih]
    have hsum : (if decide (e.2 = v ∧ e.1 ∉ O) then 1 else 0) =
        (if decide (e.2 = v ∧ e.1 ∉ O ++ [u]) then 1 else 0) +
          (if decide (e.1 = u ∧ e.2 = v) then (1 : Nat) else 0) := by
      by_cases h2 : e.2 = v
      · by_cases h1 : e.1 = u
        · rw [if_pos (by simp [h2, h1, hu]), if_neg (by simp [h1]),
            if_pos (by simp [h1, h2])]
        · by_cases hO : e.1 ∈ O
          · rw [if_neg (by simp [hO]), if_neg (by simp [hO]), if_neg (by simp [h1])]
          · rw [if_pos (by simp [h2, hO]), if_pos (by simp [h2, hO, h1]),
              if_neg (by simp [h1])]
      · rw [if_neg (by simp [h2]), if_neg (by simp [h2]), if_neg (by simp [h2])]
    omega

/-- Growing the output can only reduce the pending-predecessor count. -/
theorem cntPreds_append_le (E : List (Str × Str)) (O O' : List Str) (v : Str) :
    cntPreds E (O ++ O') v ≤ cntPreds E O v := by
  apply List.countP_mono_left
  intro e _ he
  simp only [decide_eq_true_eq] at he ⊢
  exact ⟨he.1, fun hO => he.2 (by simp [hO])⟩

/-- A pending-predecessor count of zero means every edge into `v` has its
source already in the output. -/
theorem cntPreds_zero {E : List (Str × Str)} {O : List Str} {v : Str}
    (h : cntPreds E O v = 0) : ∀ p, (p, v) ∈ E → p ∈ O := by
  intro p hp
  have hnp := List.countP_eq_zero.mp h _ hp
  simp only [decide_eq_true_eq] at hnp
  by_contra hO
  exact hnp ⟨trivial, hO⟩

/-- Edges out of a not-yet-output node are all still pending. -/
theorem countEdge_le_cntPreds (E : List (Str × Str)) {O : List Str} {u : Str}
    (hu : u ∉ O) (v : Str) : countEdge E u v ≤ cntPreds E O v := by
  apply List.countP_mono_left
  intro e _ he
  simp only [decide_eq_true_eq] at he ⊢
  exact ⟨he.2, he.1 ▸ hu⟩

-- ---------------------------------------------------------------------------
-- Facts about the relaxation fold
-- ---------------------------------------------------------------------------

/-- After relaxing the successor list `L`, each in-degree has dropped by the
number of occurrences in `L`. -/
theorem kahnFold_indeg : ∀ (L : List Str) (S : List Str) (J : IndegMap) (w : Str),
    indegLookup (L.foldl relaxSucc (S, J)).2 w = indegLookup J w - (L.count w : Int) := by
  intro L
  induction L with
  | nil => intro S J w; simp
  | cons v L' ih =>
    intro S J w
    rw [List.foldl_cons, relaxSucc_eq]
    by_cases hc : indegLookup (indegDecr J v) v = 0 <;>
      [rw [if_pos hc]; rw [if_neg hc]] <;>
      rw [ih] <;>
      by_cases hw : w = v <;>
      [ (subst hw; rw [indegLookup_indegDecr_self, List.count_cons_self]; push_cast; ring);
        (rw [indegLookup_indegDecr_ne _ hw, List.count_cons_of_ne hw]);
        (subst hw; rw [indegLookup_indegDecr_self, List.count_cons_self]; push_cast; ring);
        (rw [indegLookup_indegDecr_ne _ hw, List.count_cons_of_ne hw])]

/-- Everything in the ready set after relaxing `L` was either ready before,
or occurs in `L` with an in-degree at most its multiplicity in `L`. -/
theorem kahnFold_newReady : ∀ (L : List Str) (S : List Str) (J : IndegMap) (w : Str),
    w ∈ (L.foldl relaxSucc (S, J)).1 →
    w ∈ S ∨ (w ∈ L ∧ indegLookup J w ≤ (L.count w : Int)) := by
  intro L
  induction L with
  | nil => intro S J w h; exact Or.inl h
  | cons v L' ih =>
    intro S J w h
    rw [List.foldl_cons, relaxSucc_eq] at h
    by_cases hc : indegLookup (indegDecr J v) v = 0
    · rw [if_pos hc] at h
      rcases ih _ _ _ h with h' | h'
      · rcases setInsert_mem h' with rfl | h''
        · refine Or.inr ⟨List.mem_cons_self .., ?_⟩
          rw [indegLookup_indegDecr_self] at hc
          rw [List.count_cons_self]
          omega
        · exact Or.inl h''
      · obtain ⟨hmem, hle⟩ := h'
        refine Or.inr ⟨List.mem_cons_of_mem _ hmem, ?_⟩
        by_cases hw : w = v
        · subst hw
          rw [indegLookup_indegDecr_self] at hle
          rw [List.count_cons_self]
          omega
        · rw [indegLookup_indegDecr_ne _ hw] at hle
          rw [List.count_cons_of_ne hw]
          exact hle
    · rw [if_neg hc] at h
      rcases ih _ _ _ h with h' | h'
      · exact Or.inl h'
      · obtain ⟨hmem, hle⟩ := h'
        refine Or.inr ⟨List.mem_cons_of_mem _ hmem, ?_⟩
        by_cases hw : w = v
        · subst hw
          rw [indegLookup_indegDecr_self] at hle
          rw [List.count_cons_self]
          omega
        · rw [indegLookup_indegDecr_ne _ hw] at hle
          rw [List.count_cons_of_ne hw]
          exact hle

/-- Main safety invariant of the Kahn loop: starting from an output `O`, a
ready set `Z` and an in-degree table `I` consistent with the edge list `E`,
every code the loop emits has each of its `E`-predecessors either already in
`O` or emitted strictly earlier; moreover everything emitted is outside `O`,
inside `K`, and emitted at most once. -/
theorem kahnLoop_invariant (E : List (Str × Str)) (adj : AdjMap) (K : List Str)
    (hadj : ∀ u, adjLookup adj u = (E.filter (fun e => decide (e.1 = u))).map Prod.snd)
    (hEK : ∀ e ∈ E, e.2 ∈ K) :
    ∀ (fuel : Nat) (O Z : List Str) (I : IndegMap),
      (∀ v ∈ Z, cntPreds E O v = 0 ∧ v ∉ O) →
      (∀ v ∈ O, cntPreds E O v = 0) →
      (∀ v, v ∉ O → indegLookup I v = (cntPreds E O v : Int)) →
      sortedStr Z = true →
      (∀ v ∈ Z, v ∈ K) →
      (∀ (j : Nat) (c : Str), (kahnLoop fuel Z adj I)[j]? = some c →
          ∀ p, (p, c) ∈ E →
            p ∈ O ∨ ∃ i : Nat, i < j ∧ (kahnLoop fuel Z adj I)[i]? = some p) ∧
        (∀ v ∈ kahnLoop fuel Z adj I, v ∉ O ∧ v ∈ K) ∧
        (kahnLoop fuel Z adj I).Nodup := by
  intro fuel
  induction fuel with
  | zero =>
    intro O Z I _ _ _ _ _
    refine ⟨?_, ?_, ?_⟩ <;> simp [kahnLoop]
  | succ fuel ih =>
    intro O Z I hZ hO hI hZs hZK
    cases Z with
    | nil => refine ⟨?_, ?_, ?_⟩ <;> simp [kahnLoop]
    | cons u rest =>
      set Z1 := (kahnStep rest adj I u).1 with hZ1def
      set I1 := (kahnStep rest adj I u).2 with hI1def
      set O1 := O ++ [u] with hO1def
      have hku : kahnLoop (fuel + 1) (u :: rest) adj I = u :: kahnLoop fuel Z1 adj I1 := by
        rw [hZ1def, hI1def]; rfl
      have hu := hZ u (List.mem_cons_self ..)
      have huO : u ∉ O := hu.2
      have hcu : cntPreds E O u = 0 := hu.1
      have hLuMem : ∀ w ∈ adjLookup adj u, (u, w) ∈ E := by
        intro w hw
        rw [hadj u] at hw
        exact mem_snd_filter hw
      have hLuCount : ∀ w, (adjLookup adj u).count w = countEdge E u w := by
        intro w
        rw [hadj u]
        exact count_snd_filter E u w
      have hEnotO : ∀ w, (u, w) ∈ E → w ∉ O := by
        intro w hw hwO
        exact huO (cntPreds_zero (hO w hwO) u hw)
      have hEnotu : ∀ w, (u, w) ∈ E → w ≠ u := by
        intro w hw heq
        subst heq
        exact huO (cntPreds_zero hcu w hw)
      have hnotO1 : ∀ v, v ∉ O → v ≠ u → v ∉ O1 := by
        intro v h1 h2 hmem
        rw [hO1def] at hmem
        rcases List.mem_append.mp hmem with h | h
        · exact h1 h
        · rw [List.mem_singleton] at h
          exact h2 h
      have hsplit : ∀ v, cntPreds E O v = cntPreds E O1 v + countEdge E u v := by
        intro v
        rw [hO1def]
        exact cntPreds_append E huO v
      have hI1new : ∀ v, v ∉ O1 → indegLookup I1 v = (cntPreds E O1 v : Int) := by
        intro v hv
        have hvO : v ∉ O := fun h => hv (by rw [hO1def]; exact List.mem_append_left _ h)
        rw [hI1def, kahnStep, kahnFold_indeg, hLuCount v, hI v hvO]
        have := hsplit v
        omega
      have hZ1new : ∀ v ∈ Z1, cntPreds E O1 v = 0 ∧ v ∉ O1 := by
        intro v hv
        rw [hZ1def, kahnStep] at hv
        rcases kahnFold_newReady (adjLookup adj u) rest I v hv with hvr | ⟨hvL, hvle⟩
        · have h1 := hZ v (List.mem_cons_of_mem _ hvr)
          have hvne : v ≠ u := by
            intro heq
            have hlt := sortedStr_head_lt hZs v hvr
            rw [heq, strLt_irrefl] at hlt
            exact absurd hlt (by simp)
          have := hsplit v
          exact ⟨by omega, hnotO1 v h1.2 hvne⟩
        · have hvE : (u, v) ∈ E := hLuMem v hvL
          have hvO : v ∉ O := hEnotO v hvE
          have hvne : v ≠ u := hEnotu v hvE
          rw [hLuCount v, hI v hvO] at hvle
          have h2 : cntPreds E O v ≤ countEdge E u v := by exact_mod_cast hvle
          have := hsplit v
          exact ⟨by omega, hnotO1 v hvO hvne⟩
      have hO1new : ∀ v ∈ O1, cntPreds E O1 v = 0 := by
        intro v hv
        rw [hO1def] at hv
        rcases List.mem_append.mp hv with h | h
        · have h0 := hO v h
          have hle := cntPreds_append_le E O [u] v
          rw [← hO1def] at hle
          omega
        · rw [List.mem_singleton] at h
          subst h
          have := hsplit v
          omega
      have hZs1 : sortedStr Z1 = true := by
        rw [hZ1def]
        exact kahnStep_sorted rest adj I u (sortedStr_tail hZs)
      have hZK1 : ∀ v ∈ Z1, v ∈ K := by
        intro v hv
        rw [hZ1def, kahnStep] at hv
        rcases kahnFold_newReady (adjLookup adj u) rest I v hv with hvr | ⟨hvL, -⟩
        · exact hZK v (List.mem_cons_of_mem _ hvr)
        · exact hEK (u, v) (hLuMem v hvL)
      obtain ⟨main1, mem1, nodup1⟩ := ih O1 Z1 I1 hZ1new hO1new hI1new hZs1 hZK1
      rw [hku]
      refine ⟨?_, ?_, ?_⟩
      · intro j c hj p hpc
        cases j with
        | zero =>
          rw [List.getElem?_cons_zero] at hj
          injection hj with hj
          subst hj
          exact Or.inl (cntPreds_zero hcu p hpc)
        | succ k =>
          rw [List.getElem?_cons_succ] at hj
          rcases main1 k c hj p hpc with hp | ⟨i, hik, hip⟩
          · rw [hO1def] at hp
            rcases List.mem_append.mp hp with h | h
            · exact Or.inl h
            · rw [List.mem_singleton] at h
              subst h
              exact Or.inr ⟨0, Nat.succ_pos k, by rw [List.getElem?_cons_zero]⟩
          · refine Or.inr ⟨i + 1, by omega, ?_⟩
            rw [List.getElem?_cons_succ]
            exact hip
      · intro v hv
        rcases List.mem_cons.mp hv with rfl | hv
        · exact ⟨huO, hZK v (List.mem_cons_self ..)⟩
        · have h1 := mem1 v hv
          refine ⟨fun hO0 => h1.1 (by rw [hO1def]; exact List.mem_append_left _ hO0), h1.2⟩
      · rw [List.nodup_cons]
        refine ⟨?_, nodup1⟩
        intro hu1
        exact (mem1 u hu1).1 (by rw [hO1def]; exact List.mem_append_right _ (by simp))

-- ---------------------------------------------------------------------------
-- buildGraph structure lemmas
-- ---------------------------------------------------------------------------

/-- `buildGraph`'s nested second loop visits exactly the flattened
instruction sequence. -/
theorem foldGraph_flatten (catalog : Catalog) : ∀ (cats : Catalog) (acc : AdjMap × IndegMap),
    cats.foldl (fun acc kv =>
        kv.2.prereqs.foldl (fun acc2 p =>
            if isKey catalog p then (adjAppend acc2.1 p kv.1, indegIncr acc2.2 kv.1) else acc2)
          acc)
      acc
      = (prereqInstr cats).foldl (graphStep catalog) acc := by
  intro cats
  induction cats with
  | nil => intro acc; rfl
  | cons kv rest ih =>
    intro acc
    rw [List.foldl_cons, ih, prereqInstr, List.foldl_append, List.foldl_map]
    rfl

theorem buildGraph_eq (catalog : Catalog) :
    buildGraph catalog = (prereqInstr catalog).foldl (graphStep catalog)
      (catalog.map (fun kv => (kv.1, [])), catalog.map (fun kv => (kv.1, 0))) := by
  rw [buildGraph]
  exact foldGraph_flatten catalog catalog _

theorem foldInstr_keys (catalog : Catalog) : ∀ (L : List (Str × Str)) (acc : AdjMap × IndegMap),
    keysOf (L.foldl (graphStep catalog) acc).1 = keysOf acc.1 ∧
      keysOf (L.foldl (graphStep catalog) acc).2 = keysOf acc.2 := by
  intro L
  induction L with
  | nil => intro acc; exact ⟨rfl, rfl⟩
  | cons e L' ih =>
    intro acc
    rw [List.foldl_cons]
    rcases ih (graphStep catalog acc e) with ⟨h1, h2⟩
    rw [h1, h2]
    unfold graphStep
    by_cases hk : isKey catalog e.1
    · rw [if_pos hk]
      exact ⟨keysOf_adjAppend .., keysOf_indegIncr ..⟩
    · rw [if_neg hk]
      exact ⟨rfl, rfl⟩

theorem foldInstr_adj (catalog : Catalog) : ∀ (L : List (Str × Str)) (A : AdjMap) (I : IndegMap),
    (∀ k, isKey catalog k = true → k ∈ keysOf A) →
    ∀ u, adjLookup (L.foldl (graphStep catalog) (A, I)).1 u
      = adjLookup A u ++
          ((L.filter (fun e => isKey catalog e.1 && decide (e.1 = u))).map Prod.snd) := by
  intro L
  induction L with
  | nil => intro A I _ u; simp
  | cons e L' ih =>
    intro A I hA u
    rw [List.foldl_cons]
    by_cases hk : isKey catalog e.1
    · have hstep : graphStep catalog (A, I) e = (adjAppend A e.1 e.2, indegIncr I e.2) := by
        unfold graphStep; rw [if_pos hk]
      rw [hstep]
      have hA' : ∀ k, isKey catalog k = true → k ∈ keysOf (adjAppend A e.1 e.2) := by
        intro k hkk
        rw [keysOf_adjAppend]
        exact hA k hkk
      rw [ih (adjAppend A e.1 e.2) (indegIncr I e.2) hA' u]
      by_cases hu : e.1 = u
      · have hmem : u ∈ keysOf A := hA u (hu ▸ hk)
        rw [hu, adjLookup_adjAppend_self hmem]
        rw [List.filter_cons_of_pos (by simp [hu, hu ▸ hk])]
        simp
      · rw [adjLookup_adjAppend_ne A e.2 (fun h => hu h.symm)]
        rw [List.filter_cons_of_neg (by simp [hu])]
    · have hstep : graphStep catalog (A, I) e = (A, I) := by
        unfold graphStep; rw [if_neg hk]
      rw [hstep, ih A I hA u, List.filter_cons_of_neg (by simp [hk])]

theorem foldInstr_indeg (catalog : Catalog) : ∀ (L : List (Str × Str)) (A : AdjMap) (I : IndegMap),
    (∀ e ∈ L, e.2 ∈ keysOf I) →
    ∀ w, indegLookup (L.foldl (graphStep catalog) (A, I)).2 w
      = indegLookup I w + (L.countP (fun e => isKey catalog e.1 && decide (e.2 = w)) : Int) := by
  intro L
  induction L with
  | nil => intro A I _ w; simp
  | cons e L' ih =>
    intro A I hI w
    rw [List.foldl_cons, List.countP_cons]
    by_cases hk : isKey catalog e.1
    · have hstep : graphStep catalog (A, I) e = (adjAppend A e.1 e.2, indegIncr I e.2) := by
        unfold graphStep; rw [if_pos hk]
      rw [hstep]
      have hI' : ∀ e' ∈ L', e'.2 ∈ keysOf (indegIncr I e.2) := by
        intro e' he'
        rw [keysOf_indegIncr]
        exact hI e' (List.mem_cons_of_mem _ he')
      rw [ih (adjAppend A e.1 e.2) (indegIncr I e.2) hI' w]
      by_cases hw : e.2 = w
      · have hm : w ∈ keysOf I := hw ▸ hI e (List.mem_cons_self ..)
        rw [hw, indegLookup_indegIncr_self hm, if_pos (by simp [hk, hw])]
        push_cast
        ring
      · rw [indegLookup_indegIncr_ne I (fun h => hw h.symm)]
        rw [if_neg (by simp [hw])]
        push_cast
        ring
    · have hstep : graphStep catalog (A, I) e = (A, I) := by
        unfold graphStep; rw [if_neg hk]
      rw [hstep, ih A I (fun e' he' => hI e' (List.mem_cons_of_mem _ he')) w,
        if_neg (by simp [hk])]
      push_cast
      ring

/-- Every instruction's course endpoint is a catalog key. -/
theorem prereqInstr_target : ∀ (cats : Catalog), ∀ e ∈ prereqInstr cats, e.2 ∈ keysOf cats := by
  intro cats
  induction cats with
  | nil => intro e he; simp [prereqInstr] at he
  | cons kv rest ih =>
    intro e he
    rw [prereqInstr] at he
    rcases List.mem_append.mp he with h | h
    · simp only [List.mem_map] at h
      obtain ⟨p, -, rfl⟩ := h
      rw [keysOf_cons]
      exact List.mem_cons_self ..
    · rw [keysOf_cons]
      exact List.mem_cons_of_mem _ (ih e h)

/-- Instruction pairs are exactly the (prerequisite, course) occurrences. -/
theorem mem_prereqInstr {p c : Str} : ∀ {cats : Catalog},
    ((p, c) ∈ prereqInstr cats ↔ ∃ co, (c, co) ∈ cats ∧ p ∈ co.prereqs) := by
  intro cats
  induction cats with
  | nil => simp [prereqInstr]
  | cons kv rest ih =>
    obtain ⟨k, co0⟩ := kv
    simp only [prereqInstr, List.mem_append, List.mem_map, ih, List.mem_cons,
      Prod.mk.injEq]
    constructor
    · rintro (⟨q, hq, hqp, hkc⟩ | ⟨co, hco, hp⟩)
      · subst hqp
        subst hkc
        exact ⟨co0, Or.inl ⟨rfl, rfl⟩, hq⟩
      · exact ⟨co, Or.inr hco, hp⟩
    · rintro ⟨co, (⟨hkc, hco⟩ | hco), hp⟩
      · subst hkc
        subst hco
        exact Or.inl ⟨p, hp, rfl, rfl⟩
      · exact Or.inr ⟨co, hco, hp⟩

theorem filter_twice {α : Type} (l : List α) (p q : α → Bool) :
    (l.filter p).filter q = l.filter (fun a => p a && q a) := by
  induction l with
  | nil => rfl
  | cons a t ih =>
    by_cases hp : p a <;> by_cases hq : q a <;>
      simp [List.filter_cons, hp, hq, ih]

theorem countP_filter_and {α : Type} (l : List α) (p q : α → Bool) :
    (l.filter p).countP q = l.countP (fun a => p a && q a) := by
  induction l with
  | nil => rfl
  | cons a t ih =>
    by_cases hp : p a <;> by_cases hq : q a <;>
      simp [List.filter_cons, List.countP_cons, hp, hq, ih]

theorem keysOf_adjInit (cat : Catalog) :
    keysOf (cat.map (fun kv => (kv.1, ([] : List Str)))) = keysOf cat := by
  induction cat with
  | nil => rfl
  | cons kv rest ih => simp [keysOf_cons, ih]

theorem keysOf_indInit (cat : Catalog) :
    keysOf (cat.map (fun kv => (kv.1, (0 : Int)))) = keysOf cat := by
  induction cat with
  | nil => rfl
  | cons kv rest ih => simp [keysOf_cons, ih]

/-- C4 scaffolding: the key lists of both built maps equal the catalog's. -/
theorem buildGraph_keys (catalog : Catalog) :
    keysOf (buildGraph catalog).1 = keysOf catalog ∧
      keysOf (buildGraph catalog).2 = keysOf catalog := by
  rw [buildGraph_eq]
  rcases foldInstr_keys catalog (prereqInstr catalog)
    (catalog.map (fun kv => (kv.1, [])), catalog.map (fun kv => (kv.1, 0))) with ⟨h1, h2⟩
  rw [h1, h2]
  exact ⟨keysOf_adjInit catalog, keysOf_indInit catalog⟩

/-- The built adjacency entry under `u` lists the targets of the graph edges
out of `u`, in edge order. -/
theorem buildGraph_adj (catalog : Catalog) (u : Str) :
    adjLookup (buildGraph catalog).1 u =
      ((graphEdges catalog).filter (fun e => decide (e.1 = u))).map Prod.snd := by
  rw [buildGraph_eq]
  rw [foldInstr_adj catalog (prereqInstr catalog) (catalog.map (fun kv => (kv.1, [])))
    (catalog.map (fun kv => (kv.1, 0)))
    (fun k hkk => by rw [keysOf_adjInit]; exact isKey_iff_mem.mp hkk) u]
  rw [adjLookup_init, graphEdges, filter_twice]
  simp

/-- The built in-degree entry under `w` counts the graph edges into `w`. -/
theorem buildGraph_indeg (catalog : Catalog) (w : Str) :
    indegLookup (buildGraph catalog).2 w =
      ((graphEdges catalog).countP (fun e => decide (e.2 = w)) : Int) := by
  rw [buildGraph_eq]
  rw [foldInstr_indeg catalog (prereqInstr catalog) (catalog.map (fun kv => (kv.1, [])))
    (catalog.map (fun kv => (kv.1, 0)))
    (fun e he => by rw [keysOf_indInit]; exact prereqInstr_target catalog e he) w]
  rw [indegLookup_init, graphEdges, countP_filter_and]
  simp

theorem graphEdges_target (catalog : Catalog) : ∀ e ∈ graphEdges catalog,
    e.2 ∈ keysOf catalog :=
  fun e he => prereqInstr_target catalog e (List.mem_of_mem_filter he)

theorem prereqEdge_mem_graphEdges {catalog : Catalog} {p c : Str}
    (h : prereqEdge catalog p c) : (p, c) ∈ graphEdges catalog := by
  obtain ⟨co, hfind, hp, hkey⟩ := h
  exact List.mem_filter.mpr ⟨mem_prereqInstr.mpr ⟨co, findC_eq_some_mem hfind, hp⟩, hkey⟩

theorem cntPreds_nil (E : List (Str × Str)) (v : Str) :
    cntPreds E [] v = E.countP (fun e => decide (e.2 = v)) := by
  unfold cntPreds
  induction E with
  | nil => rfl
  | cons e E' ih => simp [List.countP_cons, ih]

/-- The loop invariant instantiated for the complete sort `topoOrder`. -/
theorem topoOrder_main (catalog : Catalog) (hnd : (keysOf catalog).Nodup) :
    (∀ (j : Nat) (c : Str), (topoOrder catalog)[j]? = some c →
        ∀ p, (p, c) ∈ graphEdges catalog →
          ∃ i : Nat, i < j ∧ (topoOrder catalog)[i]? = some p) ∧
      (∀ v ∈ topoOrder catalog, v ∈ keysOf catalog) ∧
      (topoOrder catalog).Nodup := by
  have htopo : topoOrder catalog =
      kahnLoop ((buildGraph catalog).2.length + totalAdjLen (buildGraph catalog).1 + 1)
        (initialZero (buildGraph catalog).2) (buildGraph catalog).1
        (buildGraph catalog).2 := rfl
  have hadj := buildGraph_adj catalog
  have hEK := graphEdges_target catalog
  have hndI : (keysOf (buildGraph catalog).2).Nodup := by
    rw [(buildGraph_keys catalog).2]
    exact hnd
  have hI0 : ∀ v, v ∉ ([] : List Str) →
      indegLookup (buildGraph catalog).2 v = (cntPreds (graphEdges catalog) [] v : Int) := by
    intro v _
    rw [buildGraph_indeg, cntPreds_nil]
  have hlookup0 : ∀ v ∈ initialZero (buildGraph catalog).2,
      indegLookup (buildGraph catalog).2 v = 0 ∧ v ∈ keysOf (buildGraph catalog).2 := by
    intro v hv
    have hv' := setOfList_mem hv
    simp only [List.mem_map, List.mem_filter] at hv'
    obtain ⟨kv, ⟨hkv, h0⟩, rfl⟩ := hv'
    have h0' : kv.2 = 0 := by simpa using h0
    have hmem : (kv.1, kv.2) ∈ (buildGraph catalog).2 := by
      cases kv
      exact hkv
    constructor
    · rw [indegLookup_of_mem_nodup hndI hmem, h0']
    · exact List.mem_map_of_mem Prod.fst hkv
  have hZ0 : ∀ v ∈ initialZero (buildGraph catalog).2,
      cntPreds (graphEdges catalog) [] v = 0 ∧ v ∉ ([] : List Str) := by
    intro v hv
    obtain ⟨hl, -⟩ := hlookup0 v hv
    rw [hI0 v (by simp)] at hl
    exact ⟨by exact_mod_cast hl, by simp⟩
  have hZK0 : ∀ v ∈ initialZero (buildGraph catalog).2, v ∈ keysOf catalog := by
    intro v hv
    rw [← (buildGraph_keys catalog).2]
    exact (hlookup0 v hv).2
  have hO0 : ∀ v ∈ ([] : List Str), cntPreds (graphEdges catalog) [] v = 0 := by
    intro v hv
    simp at hv
  obtain ⟨main, mem, nodup⟩ := kahnLoop_invariant (graphEdges catalog)
    (buildGraph catalog).1 (keysOf catalog) hadj hEK
    ((buildGraph catalog).2.length + totalAdjLen (buildGraph catalog).1 + 1)
    [] (initialZero (buildGraph catalog).2) (buildGraph catalog).2
    hZ0 hO0 hI0 (setOfList_sorted _) hZK0
  rw [htopo]
  refine ⟨?_, fun v hv => (mem v hv).2, nodup⟩
  intro j c hj p hpc
  rcases main j c hj p hpc with hp | h
  · simp at hp
  · exact h

/-- C1: for every catalog (keys unique, as `std::unordered_map` guarantees),
the topological sorter's output respects prerequisites: whenever course `c`
appears at output position `j` and `p` is one of `c`'s prerequisites that is
present as a catalog key, `p` appears at some strictly earlier position. -/
theorem topoOrder_respects_prereqs (catalog : Catalog) (hnd : (keysOf catalog).Nodup)
    (c p : Str) (co : Course) (hc : findC catalog c = some co) (hp : p ∈ co.prereqs)
    (hkey : isKey catalog p = true) (j : Nat)
    (hj : (topoOrder catalog)[j]? = some c) :
    ∃ i : Nat, i < j ∧ (topoOrder catalog)[i]? = some p :=
  (topoOrder_main catalog hnd).1 j c hj p
    (prereqEdge_mem_graphEdges ⟨co, hc, hp, hkey⟩)

/-- Witness for `topoOrder_respects_prereqs` on the sample catalog:
CSCI101 (position 1) requires CSCI100, which is placed before it. -/
theorem topoOrder_respects_prereqs_witness :
    (keysOf demoCatalog).Nodup ∧
      findC demoCatalog (asciiStr "CSCI101") =
        some { number := asciiStr "CSCI101", title := asciiStr "Intro to Programming",
               prereqs := [asciiStr "CSCI100"] } ∧
      isKey demoCatalog (asciiStr "CSCI100") = true ∧
      (topoOrder demoCatalog)[1]? = some (asciiStr "CSCI101") ∧
      (∃ i : Nat, i < 1 ∧ (topoOrder demoCatalog)[i]? = some (asciiStr "CSCI100")) :=
  ⟨by decide, by decide, by decide, by decide,
    topoOrder_respects_prereqs demoCatalog (by decide) (asciiStr "CSCI101")
      (asciiStr "CSCI100")
      { number := asciiStr "CSCI101", title := asciiStr "Intro to Programming",
        prereqs := [asciiStr "CSCI100"] }
      (by decide) (by decide) (by decide) 1 (by decide)⟩

/-- C10: the sorter's output contains only catalog keys, each at most once,
so the `catalog.at(...)` lookups performed while printing the recommended
order never fail. -/
theorem topoOrder_output_keys (catalog : Catalog) (hnd : (keysOf catalog).Nodup) :
    (∀ v ∈ topoOrder catalog, isKey catalog v = true ∧ ∃ co, findC catalog v = some co) ∧
      (topoOrder catalog).Nodup := by
  obtain ⟨-, mem, nodup⟩ := topoOrder_main catalog hnd
  refine ⟨fun v hv => ?_, nodup⟩
  have hk : isKey catalog v = true := isKey_iff_mem.mpr (mem v hv)
  exact ⟨hk, isKey_iff_findC.mp hk⟩

/-- Witness for `topoOrder_output_keys` on the sample catalog. -/
theorem topoOrder_output_keys_witness :
    (keysOf demoCatalog).Nodup ∧
      ((∀ v ∈ topoOrder demoCatalog,
          isKey demoCatalog v = true ∧ ∃ co, findC demoCatalog v = some co) ∧
        (topoOrder demoCatalog).Nodup) :=
  ⟨by decide, topoOrder_output_keys demoCatalog (by decide)⟩

/-- No member of a cycle set is ever emitted by the sorter (by strong
induction on the output position, walking the cycle backwards). -/
theorem cycle_not_in_topoOrder (catalog : Catalog) (hnd : (keysOf catalog).Nodup)
    (S : List Str) (hS : CycleSet catalog S) :
    ∀ (j : Nat) (c : Str), c ∈ S → (topoOrder catalog)[j]? ≠ some c := by
  intro j
  induction j using Nat.strong_induction_on with
  | _ j ih =>
    intro c hc hj
    obtain ⟨p, hpS, hedge⟩ := hS.2 c hc
    obtain ⟨i, hij, hi⟩ :=
      (topoOrder_main catalog hnd).1 j c hj p (prereqEdge_mem_graphEdges hedge)
    exact ih i hij p hpS hi

/-- C2: when a cycle exists among catalog courses, the emitted order is
strictly shorter than the catalog, so `printRecommendedOrder` reports the
explicit circular-dependency warning next to the partial order, and the
function still returns a report (the embedded function is total — the
process does not abort). -/
theorem cycle_detected (catalog : Catalog) (hnd : (keysOf catalog).Nodup)
    (S : List Str) (hS : CycleSet catalog S) :
    (printRecommendedOrder catalog).order.length < catalog.length ∧
      (printRecommendedOrder catalog).cycleWarning = true ∧
      (printRecommendedOrder catalog).noData = false := by
  obtain ⟨s0, hs0⟩ : ∃ s, s ∈ S := by
    cases S with
    | nil => exact absurd rfl hS.1
    | cons a t => exact ⟨a, List.mem_cons_self ..⟩
  obtain ⟨p, hpS, hedge⟩ := hS.2 s0 hs0
  obtain ⟨co, hfind, -, -⟩ := hedge
  have hs0key : s0 ∈ keysOf catalog :=
    List.mem_map_of_mem Prod.fst (findC_eq_some_mem hfind)
  have hs0not : s0 ∉ topoOrder catalog := by
    intro hmem
    obtain ⟨i, hi⟩ := List.mem_iff_getElem?.mp hmem
    exact cycle_not_in_topoOrder catalog hnd S hS i s0 hs0 hi
  obtain ⟨-, mem, nodup⟩ := topoOrder_main catalog hnd
  have hlen : (topoOrder catalog).length < catalog.length := by
    have hsub : (topoOrder catalog).toFinset ⊆ (keysOf catalog).toFinset := by
      intro x hx
      rw [List.mem_toFinset] at hx ⊢
      exact mem x hx
    have hcard : (topoOrder catalog).toFinset.card < (keysOf catalog).toFinset.card :=
      Finset.card_lt_card ((Finset.ssubset_iff_of_subset hsub).mpr
        ⟨s0, List.mem_toFinset.mpr hs0key, fun hx => hs0not (List.mem_toFinset.mp hx)⟩)
    rw [List.toFinset_card_of_nodup nodup, List.toFinset_card_of_nodup hnd] at hcard
    rwa [keysOf, List.length_map] at hcard
  have hne : ¬ catalog.isEmpty = true := by
    intro hE
    rw [List.isEmpty_iff] at hE
    rw [hE] at hs0key
    simp [keysOf] at hs0key
  have hprint : printRecommendedOrder catalog =
      ⟨false, topoOrder catalog, (topoOrder catalog).length != catalog.length⟩ := by
    rw [printRecommendedOrder, if_neg hne]
  rw [hprint]
  refine ⟨hlen, ?_, rfl⟩
  rw [bne_iff_ne]
  omega

/-- Witness for `cycle_detected`: the two-course catalog in which A requires
B and B requires A yields an order of length 0 < 2 plus the cycle warning. -/
theorem cycle_detected_witness :
    (keysOf cycleCatalog).Nodup ∧
      CycleSet cycleCatalog [asciiStr "A", asciiStr "B"] ∧
      ((printRecommendedOrder cycleCatalog).order.length < cycleCatalog.length ∧
        (printRecommendedOrder cycleCatalog).cycleWarning = true ∧
        (printRecommendedOrder cycleCatalog).noData = false) :=
  have hcyc : CycleSet cycleCatalog [asciiStr "A", asciiStr "B"] := by
    constructor
    · decide
    · intro c hc
      rcases List.mem_cons.mp hc with rfl | hc
      · exact ⟨asciiStr "B", by decide,
          ⟨{ number := asciiStr "A", title := asciiStr "Course A",
             prereqs := [asciiStr "B"] }, by decide, by decide, by decide⟩⟩
      · rcases List.mem_cons.mp hc with rfl | hc
        · exact ⟨asciiStr "A", by decide,
            ⟨{ number := asciiStr "B", title := asciiStr "Course B",
               prereqs := [asciiStr "A"] }, by decide, by decide, by decide⟩⟩
        · exact absurd hc (by simp)
  ⟨by decide, hcyc, cycle_detected cycleCatalog (by decide) _ hcyc⟩

theorem countP_ext {α : Type} (l : List α) {p q : α → Bool} (h : ∀ a ∈ l, p a = q a) :
    l.countP p = l.countP q := by
  induction l with
  | nil => rfl
  | cons a t ih =>
    rw [List.countP_cons, List.countP_cons, h a (List.mem_cons_self ..),
      ih (fun b hb => h b (List.mem_cons_of_mem _ hb))]

theorem countP_pairs (ps : List Str) (k p c : Str) :
    ((ps.map (fun q => (q, k))).countP (fun e => decide (e.1 = p ∧ e.2 = c))) =
      if k = c then ps.count p else 0 := by
  induction ps with
  | nil => simp
  | cons q ps ih =>
    rw [List.map_cons, List.countP_cons, ih]
    by_cases hk : k = c
    · rw [if_pos hk, if_pos hk, List.count_cons]
      by_cases hq : q = p
      · rw [if_pos (by simp [hq, hk]), if_pos (by simp [hq])]
      · rw [if_neg (by simp [hq]), if_neg (by simp [hq])]
    · rw [if_neg hk, if_neg hk, if_neg (by simp [hk])]

theorem countP_instr_zero (cats : Catalog) (q : Str × Str → Bool) (c : Str)
    (hq : ∀ e, q e = true → e.2 = c) (hc : c ∉ keysOf cats) :
    (prereqInstr cats).countP q = 0 := by
  rw [List.countP_eq_zero]
  intro e he hqe
  exact hc (hq e hqe ▸ prereqInstr_target cats e he)

theorem countP_instr_pair : ∀ (cats : Catalog), (keysOf cats).Nodup →
    ∀ (p c : Str) (co : Course), findC cats c = some co →
      (prereqInstr cats).countP (fun e => decide (e.1 = p ∧ e.2 = c)) =
        co.prereqs.count p := by
  intro cats
  induction cats with
  | nil =>
    intro _ p c co hc
    simp [findC] at hc
  | cons kv rest ih =>
    intro hnd p c co hc
    rw [prereqInstr, List.countP_append, countP_pairs]
    rw [keysOf_cons, List.nodup_cons] at hnd
    by_cases hk : kv.1 = c
    · rw [findC, if_pos hk] at hc
      injection hc with hc
      subst hc
      rw [if_pos hk]
      have hzero : (prereqInstr rest).countP (fun e => decide (e.1 = p ∧ e.2 = c)) = 0 := by
        apply countP_instr_zero rest _ c
        · intro e he
          simp only [decide_eq_true_eq] at he
          exact he.2
        · rw [← hk]
          exact hnd.1
      rw [hzero]
      simp
    · rw [findC, if_neg hk] at hc
      rw [if_neg hk, ih hnd.2 p c co hc]
      simp

theorem countP_pairs_indeg (catFull : Catalog) (ps : List Str) (k c : Str) :
    ((ps.map (fun q => (q, k))).countP (fun e => isKey catFull e.1 && decide (e.2 = c))) =
      if k = c then (ps.filter (fun q => isKey catFull q)).length else 0 := by
  induction ps with
  | nil => simp
  | cons q ps ih =>
    rw [List.map_cons, List.countP_cons, ih]
    by_cases hk : k = c
    · rw [if_pos hk, if_pos hk, List.filter_cons]
      by_cases hq : isKey catFull q = true
      · rw [if_pos (by simp [hq, hk]), if_pos (by simpa using hq), List.length_cons]
      · rw [if_neg (by simp [hq]), if_neg (by simpa using hq)]
        simp
    · rw [if_neg hk, if_neg hk, if_neg (by simp [hk])]

theorem countP_instr_indeg (catFull : Catalog) : ∀ (cats : Catalog), (keysOf cats).Nodup →
    ∀ (c : Str) (co : Course), findC cats c = some co →
      (prereqInstr cats).countP (fun e => isKey catFull e.1 && decide (e.2 = c)) =
        (co.prereqs.filter (fun q => isKey catFull q)).length := by
  intro cats
  induction cats with
  | nil =>
    intro _ c co hc
    simp [findC] at hc
  | cons kv rest ih =>
    intro hnd c co hc
    rw [prereqInstr, List.countP_append, countP_pairs_indeg]
    rw [keysOf_cons, List.nodup_cons] at hnd
    by_cases hk : kv.1 = c
    · rw [findC, if_pos hk] at hc
      injection hc with hc
      subst hc
      rw [if_pos hk]
      have hzero : (prereqInstr rest).countP
          (fun e => isKey catFull e.1 && decide (e.2 = c)) = 0 := by
        apply countP_instr_zero rest _ c
        · intro e he
          simp only [Bool.and_eq_true, decide_eq_true_eq] at he
          exact he.2
        · rw [← hk]
          exact hnd.1
      rw [hzero]
      simp
    · rw [findC, if_neg hk] at hc
      rw [if_neg hk, ih hnd.2 c co hc]
      simp

/-- C4: for every catalog (keys unique), `buildGraph` gives both the
adjacency map and the in-degree map exactly the catalog's key set; for every
catalog course `c` and any code `p`, the successor list of `p` contains `c`
exactly once per occurrence of `p` in `c`'s prerequisite list when `p` is a
catalog key (duplicates included) and never otherwise, and `c`'s in-degree
equals the number of its prerequisite occurrences that are catalog keys —
non-key prerequisites contribute no edge and no in-degree. -/
theorem buildGraph_spec (catalog : Catalog) (hnd : (keysOf catalog).Nodup)
    (c : Str) (co : Course) (hc : findC catalog c = some co) :
    keysOf (buildGraph catalog).1 = keysOf catalog ∧
      keysOf (buildGraph catalog).2 = keysOf catalog ∧
      (∀ p : Str, (adjLookup (buildGraph catalog).1 p).count c =
        if isKey catalog p then co.prereqs.count p else 0) ∧
      indegLookup (buildGraph catalog).2 c =
        ((co.prereqs.filter (fun q => isKey catalog q)).length : Int) := by
  refine ⟨(buildGraph_keys catalog).1, (buildGraph_keys catalog).2, ?_, ?_⟩
  · intro p
    rw [buildGraph_adj, count_snd_filter, countEdge, graphEdges, countP_filter_and]
    by_cases hk : isKey catalog p = true
    · rw [if_pos hk]
      have hcongr : (prereqInstr catalog).countP
            (fun e => isKey catalog e.1 && decide (e.1 = p ∧ e.2 = c)) =
          (prereqInstr catalog).countP (fun e => decide (e.1 = p ∧ e.2 = c)) := by
        apply countP_ext
        intro e _
        by_cases he : e.1 = p ∧ e.2 = c
        · simp [he, he.1, hk]
        · simp [he]
      rw [hcongr, countP_instr_pair catalog hnd p c co hc]
    · rw [if_neg hk, List.countP_eq_zero]
      intro e he hqe
      simp only [Bool.and_eq_true, decide_eq_true_eq] at hqe
      exact hk (hqe.2.1 ▸ hqe.1)
  · rw [buildGraph_indeg, graphEdges, countP_filter_and,
      countP_instr_indeg catalog catalog hnd c co hc]

/-- Witness for `buildGraph_spec`: in the sample catalog, CSCI200 has
prerequisites CSCI101 (a key — one edge, one in-degree) and MATH201 (absent —
no edge), so its in-degree is 1. -/
theorem buildGraph_spec_witness :
    (keysOf demoCatalog).Nodup ∧
      findC demoCatalog (asciiStr "CSCI200") =
        some { number := asciiStr "CSCI200", title := asciiStr "Data Structures",
               prereqs := [asciiStr "CSCI101", asciiStr "MATH201"] } ∧
      (keysOf (buildGraph demoCatalog).1 = keysOf demoCatalog ∧
        keysOf (buildGraph demoCatalog).2 = keysOf demoCatalog ∧
        (∀ p : Str, (adjLookup (buildGraph demoCatalog).1 p).count (asciiStr "CSCI200") =
          if isKey demoCatalog p
          then List.count p [asciiStr "CSCI101", asciiStr "MATH201"] else 0) ∧
        indegLookup (buildGraph demoCatalog).2 (asciiStr "CSCI200") =
          ((List.filter (fun q => isKey demoCatalog q)
              [asciiStr "CSCI101", asciiStr "MATH201"]).length : Int)) :=
  ⟨by decide, by decide,
    buildGraph_spec demoCatalog (by decide) (asciiStr "CSCI200")
      { number := asciiStr "CSCI200", title := asciiStr "Data Structures",
        prereqs := [asciiStr "CSCI101", asciiStr "MATH201"] }
      (by decide)⟩

-- ---------------------------------------------------------------------------
-- Loader lemmas
-- ---------------------------------------------------------------------------

theorem addPrereq_number (c : Course) (p : Str) : (addPrereq c p).number = c.number := by
  unfold addPrereq
  by_cases h : (canonCode p).isEmpty = true
  · rw [if_pos h]
  · rw [if_neg h]

theorem foldl_addPrereq_number (ps : List Str) (c : Course) :
    (ps.foldl addPrereq c).number = c.number := by
  induction ps generalizing c with
  | nil => rfl
  | cons p ps ih => rw [List.foldl_cons, ih, addPrereq_number]

/-- Either a line is skipped, or it stores a course under its own normalized
number (enhanced loader). -/
theorem processLineE_cases (catalog : Catalog) (line : Str) :
    processLineE catalog line = catalog ∨
      ∃ c : Course, processLineE catalog line = insertKV catalog c.number c ∧
        c.number = canonCode ((splitCSV line).getD 0 []) := by
  simp only [processLineE]
  by_cases h1 : (trim (stripBOM line)).isEmpty
  · rw [if_pos h1]
    exact Or.inl rfl
  · rw [if_neg h1]
    by_cases h2 : (trim (stripBOM line)).headD 0 = 35
    · rw [if_pos h2]
      exact Or.inl rfl
    · rw [if_neg h2]
      by_cases h3 : (splitCSV line).length < 2
      · rw [if_pos h3]
        exact Or.inl rfl
      · rw [if_neg h3]
        exact Or.inr ⟨_, rfl, foldl_addPrereq_number _ _⟩

/-- Either a line is skipped, or it stores a course with nonempty normalized
number under that number (original loader). -/
theorem processLineO_cases (catalog : Catalog) (line : Str) :
    processLineO catalog line = catalog ∨
      ∃ c : Course, processLineO catalog line = insertKV catalog c.number c ∧
        c.number = canonCode ((splitCSV line).getD 0 []) ∧
        c.number.isEmpty = false := by
  simp only [processLineO]
  by_cases h1 : (trim (stripBOM line)).isEmpty
  · rw [if_pos h1]
    exact Or.inl rfl
  · rw [if_neg h1]
    by_cases h2 : (trim (stripBOM line)).headD 0 = 35
    · rw [if_pos h2]
      exact Or.inl rfl
    · rw [if_neg h2]
      by_cases h3 : (splitCSV line).length < 2
      · rw [if_pos h3]
        exact Or.inl rfl
      · rw [if_neg h3]
        by_cases h4 : (((splitCSV line).drop 2).foldl addPrereq
            { number := canonCode ((splitCSV line).getD 0 []),
              title := (splitCSV line).getD 1 [], prereqs := [] }).number.isEmpty
        · rw [if_pos h4]
          exact Or.inl rfl
        · rw [if_neg h4]
          exact Or.inr ⟨_, rfl, foldl_addPrereq_number _ _, by simpa using h4⟩

theorem mem_insertKV {m : Catalog} {k : Str} {v : Course} {e : Str × Course}
    (h : e ∈ insertKV m k v) : e ∈ m ∨ e = (k, v) := by
  induction m with
  | nil =>
    simp [insertKV] at h
    exact Or.inr h
  | cons kv rest ih =>
    unfold insertKV at h
    by_cases h1 : kv.1 = k
    · rw [if_pos h1] at h
      rcases List.mem_cons.mp h with rfl | h
      · exact Or.inr rfl
      · exact Or.inl (List.mem_cons_of_mem _ h)
    · rw [if_neg h1] at h
      rcases List.mem_cons.mp h with rfl | h
      · exact Or.inl (List.mem_cons_self ..)
      · rcases ih h with h' | h'
        · exact Or.inl (List.mem_cons_of_mem _ h')
        · exact Or.inr h'

theorem keysOf_insertKV_mem {m : Catalog} {k : Str} {v : Course} {x : Str}
    (h : x ∈ keysOf (insertKV m k v)) : x = k ∨ x ∈ keysOf m := by
  induction m with
  | nil =>
    simp [insertKV, keysOf] at h
    exact Or.inl h
  | cons kv rest ih =>
    unfold insertKV at h
    by_cases h1 : kv.1 = k
    · rw [if_pos h1, keysOf_cons] at h
      rcases List.mem_cons.mp h with rfl | h
      · exact Or.inl rfl
      · exact Or.inr (by rw [keysOf_cons]; exact List.mem_cons_of_mem _ h)
    · rw [if_neg h1, keysOf_cons] at h
      rcases List.mem_cons.mp h with rfl | h
      · exact Or.inr (by rw [keysOf_cons]; exact List.mem_cons_self ..)
      · rcases ih h with h' | h'
        · exact Or.inl h'
        · exact Or.inr (by rw [keysOf_cons]; exact List.mem_cons_of_mem _ h')

theorem keysOf_insertKV_nodup {m : Catalog} (h : (keysOf m).Nodup) (k : Str) (v : Course) :
    (keysOf (insertKV m k v)).Nodup := by
  induction m with
  | nil => simp [insertKV, keysOf]
  | cons kv rest ih =>
    rw [keysOf_cons, List.nodup_cons] at h
    unfold insertKV
    by_cases h1 : kv.1 = k
    · rw [if_pos h1, keysOf_cons, List.nodup_cons]
      exact ⟨h1 ▸ h.1, h.2⟩
    · rw [if_neg h1, keysOf_cons, List.nodup_cons]
      refine ⟨?_, ih h.2⟩
      intro hmem
      rcases keysOf_insertKV_mem hmem with h' | h'
      · exact h1 h'
      · exact h.1 h'

theorem foldl_processLineE_good : ∀ (lines : List Str) (cat0 : Catalog),
    (∀ e ∈ cat0, e.1 = e.2.number ∧ canonCode e.1 = e.1) →
    ∀ e ∈ lines.foldl processLineE cat0, e.1 = e.2.number ∧ canonCode e.1 = e.1 := by
  intro lines
  induction lines with
  | nil => intro cat0 h0 e he; exact h0 e he
  | cons line lines ih =>
    intro cat0 h0 e he
    rw [List.foldl_cons] at he
    refine ih (processLineE cat0 line) ?_ e he
    intro e' he'
    rcases processLineE_cases cat0 line with hC | ⟨c, hC, hnum⟩
    · rw [hC] at he'
      exact h0 e' he'
    · rw [hC] at he'
      rcases mem_insertKV he' with hh | hh
      · exact h0 e' hh
      · rw [hh]
        exact ⟨rfl, by simp only; rw [hnum, canonCode_idem]⟩

theorem foldl_processLineO_good : ∀ (lines : List Str) (cat0 : Catalog),
    (∀ e ∈ cat0, e.1 = e.2.number ∧ canonCode e.1 = e.1) →
    ∀ e ∈ lines.foldl processLineO cat0, e.1 = e.2.number ∧ canonCode e.1 = e.1 := by
  intro lines
  induction lines with
  | nil => intro cat0 h0 e he; exact h0 e he
  | cons line lines ih =>
    intro cat0 h0 e he
    rw [List.foldl_cons] at he
    refine ih (processLineO cat0 line) ?_ e he
    intro e' he'
    rcases processLineO_cases cat0 line with hC | ⟨c, hC, hnum, -⟩
    · rw [hC] at he'
      exact h0 e' he'
    · rw [hC] at he'
      rcases mem_insertKV he' with hh | hh
      · exact h0 e' hh
      · rw [hh]
        exact ⟨rfl, by simp only; rw [hnum, canonCode_idem]⟩

theorem foldl_processLineE_nodup : ∀ (lines : List Str) (cat0 : Catalog),
    (keysOf cat0).Nodup → (keysOf (lines.foldl processLineE cat0)).Nodup := by
  intro lines
  induction lines with
  | nil => intro cat0 h0; exact h0
  | cons line lines ih =>
    intro cat0 h0
    rw [List.foldl_cons]
    refine ih (processLineE cat0 line) ?_
    rcases processLineE_cases cat0 line with hC | ⟨c, hC, -⟩
    · rw [hC]; exact h0
    · rw [hC]; exact keysOf_insertKV_nodup h0 _ _

theorem foldl_processLineO_nodup : ∀ (lines : List Str) (cat0 : Catalog),
    (keysOf cat0).Nodup → (keysOf (lines.foldl processLineO cat0)).Nodup := by
  intro lines
  induction lines with
  | nil => intro cat0 h0; exact h0
  | cons line lines ih =>
    intro cat0 h0
    rw [List.foldl_cons]
    refine ih (processLineO cat0 line) ?_
    rcases processLineO_cases cat0 line with hC | ⟨c, hC, -, -⟩
    · rw [hC]; exact h0
    · rw [hC]; exact keysOf_insertKV_nodup h0 _ _

theorem loadedCatalog_good {cat : Catalog} (hcat : LoadedCatalog cat) :
    ∀ e ∈ cat, e.1 = e.2.number ∧ canonCode e.1 = e.1 := by
  obtain ⟨lines, h | h⟩ := hcat
  · rw [← h]
    exact foldl_processLineE_good lines [] (by simp)
  · rw [← h]
    exact foldl_processLineO_good lines [] (by simp)

theorem loadedCatalog_nodup {cat : Catalog} (hcat : LoadedCatalog cat) :
    (keysOf cat).Nodup := by
  obtain ⟨lines, h | h⟩ := hcat
  · rw [← h]
    exact foldl_processLineE_nodup lines [] (by simp [keysOf])
  · rw [← h]
    exact foldl_processLineO_nodup lines [] (by simp [keysOf])

/-- C9: after every load (by either artifact), every catalog entry's key
equals the stored course's number field and is a fixed point of the
normalizer, so looking up any query string that normalizes to that key finds
exactly that course. -/
theorem loaded_catalog_key_consistency (cat : Catalog) (hcat : LoadedCatalog cat)
    (k : Str) (co : Course) (hmem : (k, co) ∈ cat) :
    k = co.number ∧ canonCode k = k ∧
      ∀ q : Str, canonCode q = k → findC cat (canonCode q) = some co := by
  have hgood := loadedCatalog_good hcat (k, co) hmem
  refine ⟨hgood.1, hgood.2, ?_⟩
  intro q hq
  rw [hq]
  exact findC_of_mem_nodup (loadedCatalog_nodup hcat) hmem

/-- Witness for `loaded_catalog_key_consistency` on the sample load. -/
theorem loaded_catalog_key_consistency_witness :
    LoadedCatalog demoCatalog ∧
      (asciiStr "CSCI100",
        { number := asciiStr "CSCI100", title := asciiStr "Intro to CS",
          prereqs := ([] : List Str) }) ∈ demoCatalog ∧
      (asciiStr "CSCI100" =
          ({ number := asciiStr "CSCI100", title := asciiStr "Intro to CS",
             prereqs := ([] : List Str) } : Course).number ∧
        canonCode (asciiStr "CSCI100") = asciiStr "CSCI100" ∧
        ∀ q : Str, canonCode q = asciiStr "CSCI100" →
          findC demoCatalog (canonCode q) =
            some { number := asciiStr "CSCI100", title := asciiStr "Intro to CS",
                   prereqs := ([] : List Str) }) :=
  ⟨⟨demoLines, Or.inl rfl⟩, by decide,
    loaded_catalog_key_consistency demoCatalog ⟨demoLines, Or.inl rfl⟩
      (asciiStr "CSCI100")
      { number := asciiStr "CSCI100", title := asciiStr "Intro to CS",
        prereqs := ([] : List Str) }
      (by decide)⟩
